import Mathlib

/-!
Verification of the PC-to-module resolution core of
`libc/malloc_debug/MapData.cpp`: the `/proc/self/maps` line parser, the
bounds-checked field reader `get_val`, ELF-signature validation
`valid_elf`, the load-bias program-header scan `read_loadbias`, the table
refresh `ReadMaps`, and the lookup `MapData::find` with its split-mapping
disambiguation.

Machine integers (`uintptr_t`, ELF field types) are modelled as `Nat`
with explicit `% 2 ^ 64` wherever the C arithmetic can wrap.  Process
memory is a total function from addresses to bytes.  Fallible reads
return `Option`.
-/

/-- Constant `2 ^ 64`: one past the largest `uintptr_t` value (64-bit platform). -/
def PTR_MOD : Nat := 2 ^ 64

def PROT_READ : Nat := 1

def PROT_EXEC : Nat := 4

/-- Modelled from the spec: the `MapEntry` struct lives in `MapData.h`,
which is not under `src/` (only `MapData.cpp` is).  Fields follow spec
section 3; the constructor zero-initializes `load_bias` ("0 if never
validated"), `init`, `valid` and `elf_start_offset`.  `name` is the byte
string of the backing file path. -/
structure MapEntry where
  start : Nat
  end_ : Nat
  offset : Nat
  load_bias : Nat
  name : List Char
  flags : Nat
  init : Bool
  valid : Bool
  elf_start_offset : Nat
deriving DecidableEq, Repr, Inhabited

/-- The `MapEntry(start, end, offset, name, name_len, flags)` constructor as
modelled from the spec (see `MapEntry`). -/
def mkMapEntry (start end_ offset : Nat) (name : List Char) (flags : Nat) : MapEntry :=
  { start := start, end_ := end_, offset := offset, load_bias := 0, name := name,
    flags := flags, init := false, valid := false, elf_start_offset := 0 }

/-- Process memory: byte at each address (only the low 8 bits of the
returned `Nat` are ever used). -/
def Mem : Type := Nat → Nat

/-- Little-endian value of `sz` bytes of memory starting at `addr`
(the `*reinterpret_cast<T*>(addr)` read in `get_val`). -/
def readLE (mem : Mem) (addr : Nat) : Nat → Nat
  | 0 => 0
  | n + 1 => mem addr % 256 + 256 * readLE mem (addr + 1) n

/-- Function `get_val<T>(entry, addr, store)` from MapData.cpp lines 80-91, with
`sz = sizeof(T)`.  The sum `addr + sizeof(T)` is computed in `uintptr_t`
arithmetic, i.e. modulo `2 ^ 64`.  Returns `none` exactly when the C
function returns `false` without reading. -/
def get_val (entry : MapEntry) (mem : Mem) (sz addr : Nat) : Option Nat :=
  if entry.flags &&& PROT_READ = 0 ∨ addr < entry.start ∨ (addr + sz) % PTR_MOD > entry.end_ then
    none
  else if addr &&& (sz - 1) ≠ 0 then
    none
  else
    some (readLE mem addr sz)

def SELFMAG : Nat := 4

/-- The ELF magic bytes `"\x7fELF"`. -/
def ELFMAG : List Nat := [0x7f, 0x45, 0x4c, 0x46]

/-- The `memcmp(start, ELFMAG, SELFMAG) == 0` byte comparison. -/
def sigMatch (mem : Mem) (addr : Nat) : Bool :=
  (List.range SELFMAG).all fun i => mem (addr + i) % 256 == ELFMAG.getD i 0

/-- Function `valid_elf(entry)` from MapData.cpp lines 93-101:
`__builtin_add_overflow(addr, SELFMAG, &end)` sets the overflow flag iff
the real sum reaches `2 ^ 64`; then `end >= entry->end` rejects, else the
bytes are compared. -/
def valid_elf (entry : MapEntry) (mem : Mem) : Bool :=
  if entry.start + SELFMAG ≥ PTR_MOD then false
  else if entry.start + SELFMAG ≥ entry.end_ then false
  else sigMatch mem entry.start

/-! ELF layout constants for the 64-bit `ElfW` types used by
`read_loadbias`: `offsetof(Elf64_Ehdr, e_phnum) = 56`,
`offsetof(Elf64_Ehdr, e_phoff) = 32`, and in `Elf64_Phdr`:
`p_type` at 0 (4 bytes), `p_offset` at 8 (8 bytes), `p_vaddr` at 16
(8 bytes), `sizeof(Elf64_Phdr) = 56`. -/

def e_phnum_offset : Nat := 56

def e_phoff_offset : Nat := 32

def p_type_offset : Nat := 0

def p_offset_offset : Nat := 8

def p_vaddr_offset : Nat := 16

def sizeof_phdr : Nat := 56

def PT_LOAD : Nat := 1

/-- The `for (size_t i = 0; i < ehdr.e_phnum; i++)` loop of
`read_loadbias` (MapData.cpp lines 114-130), with the remaining
iteration count as fuel and `addr` the current program-header address.
Returns the final value of `entry->load_bias` (0 on denial, no match, or
loop exhaustion). -/
def lb_loop (entry : MapEntry) (mem : Mem) : Nat → Nat → Nat
  | 0, _ => 0
  | n + 1, addr =>
    match get_val entry mem 4 ((addr + p_type_offset) % PTR_MOD) with
    | none => 0
    | some p_type =>
      match get_val entry mem 8 ((addr + p_offset_offset) % PTR_MOD) with
      | none => 0
      | some p_offset =>
        if p_type = PT_LOAD ∧ p_offset = entry.offset then
          match get_val entry mem 8 ((addr + p_vaddr_offset) % PTR_MOD) with
          | none => 0
          | some p_vaddr => p_vaddr
        else
          lb_loop entry mem n ((addr + sizeof_phdr) % PTR_MOD)

/-- Function `read_loadbias(entry)` from MapData.cpp lines 103-131, returning the
value left in `entry->load_bias`. -/
def read_loadbias (entry : MapEntry) (mem : Mem) : Nat :=
  match get_val entry mem 2 ((entry.start + e_phnum_offset) % PTR_MOD) with
  | none => 0
  | some e_phnum =>
    match get_val entry mem 8 ((entry.start + e_phoff_offset) % PTR_MOD) with
    | none => 0
    | some e_phoff => lb_loop entry mem e_phnum ((entry.start + e_phoff) % PTR_MOD)

/-- Function `init(entry)` from MapData.cpp lines 133-142 (functionally: returns
the updated entry). -/
def init (entry : MapEntry) (mem : Mem) : MapEntry :=
  if entry.init then entry
  else
    let e := { entry with init := true }
    if valid_elf e mem then
      { e with valid := true, load_bias := read_loadbias e mem }
    else e

/-! ### The `/proc/self/maps` line parser

`parse_line` uses
`sscanf(line, "%" PRIxPTR "-%" PRIxPTR " %4s %" PRIxPTR " %*x:%*x %*d %n", ...)`
and rejects the line only when fewer than 2 conversions succeed.  The
scanner model below follows C `sscanf` semantics for that fixed format:
`%x`/`%d`/`%s` skip leading whitespace and fail on a missing field, a
literal character matches exactly itself, `%n` records the position. -/

def isWs (c : Char) : Bool :=
  c = ' ' ∨ c = '\t' ∨ c = '\n'

def skipWs : List Char → List Char
  | [] => []
  | c :: cs => if isWs c then skipWs cs else c :: cs

def hexVal (c : Char) : Option Nat :=
  if '0' ≤ c ∧ c ≤ '9' then some (c.toNat - '0'.toNat)
  else if 'a' ≤ c ∧ c ≤ 'f' then some (c.toNat - 'a'.toNat + 10)
  else if 'A' ≤ c ∧ c ≤ 'F' then some (c.toNat - 'A'.toNat + 10)
  else none

def hexCore : List Char → Nat → Nat × List Char
  | [], acc => (acc, [])
  | c :: cs, acc =>
    match hexVal c with
    | some d => hexCore cs (acc * 16 + d)
    | none => (acc, c :: cs)

/-- One `%x` conversion: skip whitespace, then at least one hex digit. -/
def scanHex (cs : List Char) : Option (Nat × List Char) :=
  match skipWs cs with
  | [] => none
  | c :: cs' =>
    match hexVal c with
    | some _ => some (hexCore (c :: cs') 0)
    | none => none

def decVal (c : Char) : Option Nat :=
  if '0' ≤ c ∧ c ≤ '9' then some (c.toNat - '0'.toNat) else none

def decCore : List Char → Nat → Nat × List Char
  | [], acc => (acc, [])
  | c :: cs, acc =>
    match decVal c with
    | some d => decCore cs (acc * 10 + d)
    | none => (acc, c :: cs)

/-- One `%d` conversion (the inode field; sign handling is irrelevant for
`/proc` input). -/
def scanDec (cs : List Char) : Option (Nat × List Char) :=
  match skipWs cs with
  | [] => none
  | c :: cs' =>
    match decVal c with
    | some _ => some (decCore (c :: cs') 0)
    | none => none

def takeStr : Nat → List Char → List Char × List Char
  | 0, cs => ([], cs)
  | _, [] => ([], [])
  | n + 1, c :: cs =>
    if isWs c then ([], c :: cs)
    else
      let (t, r) := takeStr n cs
      (c :: t, r)

/-- One `%4s` conversion: skip whitespace, then up to 4 non-whitespace
characters, at least one. -/
def scanStr4 (cs : List Char) : Option (List Char × List Char) :=
  match takeStr 4 (skipWs cs) with
  | ([], _) => none
  | (t, r) => some (t, r)

def expectChar (c : Char) (cs : List Char) : Option (List Char) :=
  match cs with
  | [] => none
  | d :: ds => if d = c then some ds else none

/-- The suppressed `%*x:%*x %*d` tail of the format. -/
def scanDevInode (cs : List Char) : Option (List Char) :=
  match scanHex cs with
  | none => none
  | some (_, a) =>
    match expectChar ':' a with
    | none => none
    | some b =>
      match scanHex b with
      | none => none
      | some (_, c) =>
        match scanDec c with
        | none => none
        | some (_, d) => some d

/-- Drop one trailing newline, as `parse_line` does with
`name[name_len - 1] == '\n'`. -/
def chomp : List Char → List Char
  | [] => []
  | ['\n'] => []
  | c :: cs => c :: chomp cs

/-- Flag bits from `permissions[0] == 'r'` and `permissions[2] == 'x'` (lines 62-68). -/
def permFlags (perms : List Char) : Nat :=
  (if perms.getD 0 ' ' = 'r' then PROT_READ else 0) +
    (if perms.getD 2 ' ' = 'x' then PROT_EXEC else 0)

/-- Function `parse_line(line)` from MapData.cpp lines 44-78.  The C code rejects
the line only when `sscanf` assigns fewer than 2 conversions (start and
end); on a later field failing, it proceeds and reads uninitialized
locals (`permissions`, `offset`, `name_pos`), modelled here as
empty/zero junk values. -/
def parse_line (line : List Char) : Option MapEntry :=
  match scanHex line with
  | none => none
  | some (start, r1) =>
    match expectChar '-' r1 with
    | none => none
    | some r2 =>
      match scanHex r2 with
      | none => none
      | some (end_, r3) =>
        let (perms, offset, name) :=
          match scanStr4 r3 with
          | none => ([], 0, [])
          | some (perms, r4) =>
            match scanHex r4 with
            | none => (perms, 0, [])
            | some (offset, r5) =>
              match scanDevInode r5 with
              | none => (perms, offset, [])
              | some rest => (perms, offset, chomp (skipWs rest))
        let flags := permFlags perms
        let entry := mkMapEntry start end_ offset name flags
        some (if flags &&& PROT_READ = 0 then
                { entry with load_bias := 0, init := true, valid := false }
              else entry)

/-! ### The mapping table

Modelled from the spec: `entries_` is a `std::set<MapEntry*>` whose
comparator (in `MapData.h`, not under `src/`) keys entries on `start`
and matches a probe address against the entry whose `[start, end)`
range contains it (spec section 3).  The set is modelled as a list kept
sorted by ascending `start`. -/

def findByStart : List MapEntry → Nat → Option MapEntry
  | [], _ => none
  | e :: es, s => if e.start = s then some e else findByStart es s

def hasStart (t : List MapEntry) (s : Nat) : Bool :=
  (findByStart t s).isSome

def insertSorted : List MapEntry → MapEntry → List MapEntry
  | [], e => [e]
  | x :: xs, e => if e.start < x.start then e :: x :: xs else x :: insertSorted xs e

/-- The `entries_.find(entry)` / `entries_.insert(entry)` /
`delete entry` step of `ReadMaps` (lines 158-163): a freshly parsed
entry whose key already exists is discarded, otherwise it is inserted. -/
def insertEntry (t : List MapEntry) (e : MapEntry) : List MapEntry :=
  if hasStart t e.start then t else insertSorted t e

/-- Method `MapData::ReadMaps()` from MapData.cpp lines 144-167, over the
current text of the mapping source (one `List Char` per `fgets` line).
On a line that `parse_line` rejects it returns `false` immediately;
entries already inserted from earlier lines stay in the table. -/
def ReadMaps (t : List MapEntry) : List (List Char) → Bool × List MapEntry
  | [] => (true, t)
  | l :: ls =>
    match parse_line l with
    | none => (false, t)
    | some e => ReadMaps (insertEntry t e) ls

/-- The entries committed by a (prefix of a) refresh: the fold of
`insertEntry` over the lines that parse, stopping at the first line that
does not. -/
def commitLines (t : List MapEntry) : List (List Char) → List MapEntry
  | [] => t
  | l :: ls =>
    match parse_line l with
    | none => t
    | some e => commitLines (insertEntry t e) ls

/-- The comparator's containment semantics: probe `pc` matches entry
`e` iff `pc ∈ [e.start, e.end)`. -/
def containsPC (e : MapEntry) (pc : Nat) : Prop :=
  e.start ≤ pc ∧ pc < e.end_

instance (e : MapEntry) (pc : Nat) : Decidable (containsPC e pc) :=
  inferInstanceAs (Decidable (_ ∧ _))

/-- Lookup `entries_.find(&pc_entry)`: index of the first entry whose range
contains `pc`. -/
def lookupIdx : List MapEntry → Nat → Option Nat
  | [], _ => none
  | e :: es, pc =>
    if containsPC e pc then some 0 else (lookupIdx es pc).map (· + 1)

/-- The relative-PC formula `pc - entry->start + entry->offset + bias`
in `uintptr_t` arithmetic (lines 205 and 210). -/
def relFormula (pc : Nat) (e : MapEntry) (bias : Nat) : Nat :=
  (pc - e.start + e.offset + bias) % PTR_MOD

/-- The body of `MapData::find` after the (at most one) refresh: lookup,
lazy `init`, split-mapping disambiguation when a relative PC was
requested (MapData.cpp lines 186-212).  Returns the result (found entry
and the value stored through `rel_pc`, if any) and the updated table. -/
def findCore (mem : Mem) (t : List MapEntry) (pc : Nat) (want_rel : Bool) :
    Option (MapEntry × Option Nat) × List MapEntry :=
  match lookupIdx t pc with
  | none => (none, t)
  | some i =>
    let e1 := init (t.getD i default) mem
    let t1 := t.set i e1
    if want_rel then
      if e1.valid = false ∧ i ≠ 0 then
        let prev := t1.getD (i - 1) default
        if prev.flags = PROT_READ ∧ prev.offset < e1.offset ∧ prev.name = e1.name then
          let prev1 := init prev mem
          let t2 := t1.set (i - 1) prev1
          if prev1.valid then
            let e2 := { e1 with elf_start_offset := prev.offset }
            (some (e2, some (relFormula pc e1 prev1.load_bias)), t2.set i e2)
          else
            (some (e1, some (relFormula pc e1 e1.load_bias)), t2)
        else
          (some (e1, some (relFormula pc e1 e1.load_bias)), t1)
      else
        (some (e1, some (relFormula pc e1 e1.load_bias)), t1)
    else
      (some (e1, none), t1)

structure FindResult where
  found : Option (MapEntry × Option Nat)
  table : List MapEntry
  refreshes : Nat
deriving DecidableEq, Repr

/-- Method `MapData::find(pc, rel_pc)` from MapData.cpp lines 177-213.
`lines` is the current text of `/proc/self/maps`, consulted only when
the first lookup misses; `want_rel` is `rel_pc != nullptr`.
`refreshes` counts the `ReadMaps()` calls made. -/
def find (mem : Mem) (lines : List (List Char)) (t : List MapEntry) (pc : Nat)
    (want_rel : Bool) : FindResult :=
  let missed := (lookupIdx t pc).isNone
  let t0 := if missed then (ReadMaps t lines).2 else t
  { found := (findCore mem t0 pc want_rel).1
    table := (findCore mem t0 pc want_rel).2
    refreshes := if missed then 1 else 0 }

/-! ### Auxiliary definitions and concrete instances for the claim theorems -/

def c1entry : MapEntry :=
  { start := 2 ^ 64 - 4, end_ := 2 ^ 64 - 1, offset := 0, load_bias := 0, name := [],
    flags := PROT_READ, init := false, valid := false, elf_start_offset := 0 }

def zeroMem : Mem := fun _ => 0

def c1wentry : MapEntry :=
  { start := 0x1000, end_ := 0x2000, offset := 0, load_bias := 0, name := [],
    flags := PROT_READ, init := false, valid := false, elf_start_offset := 0 }

def c3entry : MapEntry :=
  { start := 0x1000, end_ := 0x1004, offset := 0, load_bias := 0, name := [],
    flags := PROT_READ, init := false, valid := false, elf_start_offset := 0 }

/-- Memory holding the ELF magic bytes at address 0x1000. -/
def c3mem : Mem := fun a =>
  if a = 0x1000 then 0x7f else if a = 0x1001 then 0x45
  else if a = 0x1002 then 0x4c else if a = 0x1003 then 0x46 else 0

def c3wentry : MapEntry :=
  { start := 0x1000, end_ := 0x2000, offset := 0, load_bias := 0, name := [],
    flags := PROT_READ, init := false, valid := false, elf_start_offset := 0 }

/-- Address of the `j`-th program-header-table entry as accumulated by
the loop (`addr += sizeof(phdr)` in `uintptr_t` arithmetic). -/
def phAddr (base : Nat) : Nat → Nat
  | 0 => base
  | j + 1 => (phAddr base j + sizeof_phdr) % PTR_MOD

/-- The gated `p_type` read of iteration `j`. -/
def phType (e : MapEntry) (mem : Mem) (base j : Nat) : Option Nat :=
  get_val e mem 4 ((phAddr base j + p_type_offset) % PTR_MOD)

/-- The gated `p_offset` read of iteration `j`. -/
def phOffRead (e : MapEntry) (mem : Mem) (base j : Nat) : Option Nat :=
  get_val e mem 8 ((phAddr base j + p_offset_offset) % PTR_MOD)

/-- The gated `p_vaddr` read of iteration `j`. -/
def phVaddrRead (e : MapEntry) (mem : Mem) (base j : Nat) : Option Nat :=
  get_val e mem 8 ((phAddr base j + p_vaddr_offset) % PTR_MOD)

/-- Iteration `j` reads its type and offset successfully and is not the
matching loadable segment. -/
def phNoMatch (e : MapEntry) (mem : Mem) (base j : Nat) : Prop :=
  ∃ ty off, phType e mem base j = some ty ∧ phOffRead e mem base j = some off ∧
    ¬(ty = PT_LOAD ∧ off = e.offset)

def c4entry : MapEntry :=
  { start := 0x1000, end_ := 0x2000, offset := 0, load_bias := 0, name := [],
    flags := PROT_READ, init := false, valid := false, elf_start_offset := 0 }

/-- An ELF image at 0x1000: magic, `e_phnum = 1`, `e_phoff = 0x40`, and
one program header at 0x1040 with `p_type = PT_LOAD`, `p_offset = 0`,
`p_vaddr = 0x1000`. -/
def c4mem : Mem := fun a =>
  if a = 0x1000 then 0x7f else if a = 0x1001 then 0x45
  else if a = 0x1002 then 0x4c else if a = 0x1003 then 0x46
  else if a = 0x1038 then 1
  else if a = 0x1020 then 0x40
  else if a = 0x1040 then 1
  else if a = 0x1051 then 0x10
  else 0

/-- The split-mapping disambiguation guard of `MapData::find` (lines
197-203), evaluated on the pre-lookup table `t`: the found (initialized)
entry `e1` at index `i` is not valid, is not first, its address
predecessor is readable-and-nothing-else, has a strictly smaller file
offset and the same name, and validates (after its own lazy `init`). -/
def splitTaken (mem : Mem) (t : List MapEntry) (i : Nat) (e1 : MapEntry) : Bool :=
  if e1.valid = false ∧ i ≠ 0 then
    let prev := t.getD (i - 1) default
    if prev.flags = PROT_READ ∧ prev.offset < e1.offset ∧ prev.name = e1.name then
      (init prev mem).valid
    else false
  else false

def w2e : MapEntry :=
  { start := 0x1000, end_ := 0x2000, offset := 0x30, load_bias := 0, name := [],
    flags := PROT_READ, init := false, valid := false, elf_start_offset := 0 }

def xsoName : List Char := String.toList "/lib/x.so"

/-- The read-only half of the split mapping pair. -/
def wPrev : MapEntry :=
  { start := 0x1000, end_ := 0x2000, offset := 0, load_bias := 0, name := xsoName,
    flags := PROT_READ, init := false, valid := false, elf_start_offset := 0 }

/-- The read-execute half of the split mapping pair. -/
def wExec : MapEntry :=
  { start := 0x2000, end_ := 0x3000, offset := 0x1000, load_bias := 0, name := xsoName,
    flags := PROT_READ + PROT_EXEC, init := false, valid := false, elf_start_offset := 0 }

def c6line1 : List Char := String.toList "1000-2000 r--p 00000000 00:00 0 /lib/x.so\n"

def c6line2 : List Char := String.toList "2000-3000 r-xp 00001000 00:00 0 /lib/x.so\n"

def c6lines : List (List Char) := [c6line1, c6line2]

/-- The memory image of the scenario: ELF magic at 0x1000, `e_phnum = 1`
(byte at 0x1038), `e_phoff = 0x40` (byte at 0x1020), and at 0x1040 one
program header with `p_type = PT_LOAD`, `p_offset = 0x1000` (little-
endian byte 0x10 at 0x1049) and `p_vaddr = 0x1000` (byte 0x10 at
0x1051).  Nothing is mapped at 0x2000, so the exec entry's own
validation fails. -/
def c6mem : Mem := fun a =>
  if a = 0x1000 then 0x7f else if a = 0x1001 then 0x45
  else if a = 0x1002 then 0x4c else if a = 0x1003 then 0x46
  else if a = 0x1038 then 1
  else if a = 0x1020 then 0x40
  else if a = 0x1040 then 1
  else if a = 0x1049 then 0x10
  else if a = 0x1051 then 0x10
  else 0

def goodLine : List Char := String.toList "1000-2000 r--p 00000000 00:00 0 /lib/x.so\n"

def badStartLine : List Char := String.toList "zzzz-3000 r--p 00000000 00:00 0 /x\n"

def badOffsetLine : List Char := String.toList "4000-5000 r--p qqqq 00:00 0 /x\n"

/-- An entry that has already been initialized, validated, and has a
cached nonzero bias: the refresh of a line with the same start address
0x1000 must keep it untouched. -/
def w9e : MapEntry :=
  { start := 0x1000, end_ := 0x2000, offset := 0, load_bias := 42, name := [],
    flags := PROT_READ, init := true, valid := true, elf_start_offset := 0 }

/-! ### Generic list helpers -/

theorem listSet_get_same {α : Type} (l : List α) (i : Nat) (a : α) :
    (l.set i a)[i]? = (l[i]?).map fun _ => a := by
  induction l generalizing i with
  | nil => simp
  | cons x xs ih =>
    cases i with
    | zero => simp
    | succ j => simpa using ih j

theorem listSet_get_ne {α : Type} (l : List α) (i j : Nat) (a : α) (h : i ≠ j) :
    (l.set i a)[j]? = l[j]? := by
  induction l generalizing i j with
  | nil => simp
  | cons x xs ih =>
    cases i with
    | zero =>
      cases j with
      | zero => exact absurd rfl h
      | succ k => simp
    | succ i' =>
      cases j with
      | zero => simp
      | succ k => simpa using ih i' k (by omega)

theorem getD_of_getElem? {α : Type} (l : List α) (i : Nat) (e d : α)
    (h : l[i]? = some e) : l.getD i d = e := by
  induction l generalizing i with
  | nil => simp at h
  | cons x xs ih =>
    cases i with
    | zero => simp_all
    | succ j =>
      simp only [List.getElem?_cons_succ] at h
      simpa using ih j h

theorem lookupIdx_of_first (t : List MapEntry) (pc : Nat) (i : Nat) (e : MapEntry)
    (he : t[i]? = some e) (hc : containsPC e pc)
    (hfirst : ∀ j, j < i → ¬ containsPC (t.getD j default) pc) :
    lookupIdx t pc = some i := by
  induction t generalizing i with
  | nil => simp at he
  | cons x xs ih =>
    cases i with
    | zero =>
      simp only [List.getElem?_cons_zero, Option.some.injEq] at he
      subst he
      simp [lookupIdx, hc]
    | succ j =>
      have hx : ¬ containsPC x pc := by
        have := hfirst 0 (Nat.succ_pos j)
        simpa [List.getD] using this
      simp only [List.getElem?_cons_succ] at he
      have := ih j he fun k hk => by
        have := hfirst (k + 1) (by omega)
        simpa [List.getD] using this
      simp [lookupIdx, hx, this]

theorem lookupIdx_none_iff (t : List MapEntry) (pc : Nat) :
    lookupIdx t pc = none ↔ ∀ e ∈ t, ¬ containsPC e pc := by
  induction t with
  | nil => simp [lookupIdx]
  | cons x xs ih =>
    by_cases hx : containsPC x pc
    · simp [lookupIdx, hx]
    · simp [lookupIdx, hx, ih]

/-! ### C1: the bounds gate of `get_val` -/

/-- Counterexample to C1 as stated: at the very top of the address
space the C code computes `addr + sizeof(T)` in wrapping `uintptr_t`
arithmetic.  Here the entry is readable, `addr ≥ start`, `addr` is
aligned to the size 4, and the true (non-wrapped) sum
`addr + 4 = 2 ^ 64` exceeds `end`, so the claim demands denial — yet
`get_val` performs the read, because the wrapped sum is 0. -/
theorem get_val_wrap_cex :
    c1entry.flags &&& PROT_READ ≠ 0 ∧
    c1entry.start ≤ 2 ^ 64 - 4 ∧
    2 ^ 64 - 4 + 4 > c1entry.end_ ∧
    (2 ^ 64 - 4) % 4 = 0 ∧
    (get_val c1entry zeroMem 4 (2 ^ 64 - 4)).isSome = true := by
  decide

/-- C1 (amended): provided `addr + size` does not wrap around `2 ^ 64`,
`get_val` performs the read and returns a value exactly when the entry
is readable, `[addr, addr + size)` lies fully within
`[entry.start, entry.end)`, and `addr` is aligned to `size`; any request
failing one of these conditions is denied.  (When the sum wraps, the
code compares the wrapped sum against `end` instead.) -/
theorem get_val_bounds (e : MapEntry) (mem : Mem) (sz addr : Nat)
    (hw : addr + sz < PTR_MOD) (hsz : sz = 1 ∨ sz = 2 ∨ sz = 4 ∨ sz = 8) :
    (get_val e mem sz addr).isSome = true ↔
      e.flags &&& PROT_READ ≠ 0 ∧ e.start ≤ addr ∧ addr + sz ≤ e.end_ ∧ sz ∣ addr := by
  have halign : addr &&& (sz - 1) = 0 ↔ sz ∣ addr := by
    have hpow : ∀ k : Nat, addr &&& (2 ^ k - 1) = 0 ↔ 2 ^ k ∣ addr := by
      intro k
      rw [Nat.and_pow_two_sub_one_eq_mod]
      exact ⟨Nat.dvd_of_mod_eq_zero, Nat.mod_eq_zero_of_dvd⟩
    rcases hsz with h | h | h | h <;> subst h
    · simp [Nat.one_dvd]
    · simpa using hpow 1
    · simpa using hpow 2
    · simpa using hpow 3
  unfold get_val
  rw [Nat.mod_eq_of_lt hw]
  by_cases h1 : e.flags &&& PROT_READ = 0 ∨ addr < e.start ∨ addr + sz > e.end_
  · rw [if_pos h1]
    simp only [Option.isSome_none, Bool.false_eq_true, false_iff]
    rintro ⟨hr, hs, hend, -⟩
    rcases h1 with h | h | h
    · exact hr h
    · omega
    · omega
  · rw [if_neg h1]
    push_neg at h1
    by_cases h2 : addr &&& (sz - 1) ≠ 0
    · rw [if_pos h2]
      simp only [Option.isSome_none, Bool.false_eq_true, false_iff]
      rintro ⟨-, -, -, hdvd⟩
      exact h2 (halign.mpr hdvd)
    · rw [if_neg h2]
      simp only [Option.isSome_some, true_iff]
      exact ⟨h1.1, by omega, by omega, halign.mp (not_not.mp h2)⟩

theorem get_val_bounds_witness :
    (get_val c1wentry zeroMem 4 0x1000).isSome = true :=
  (get_val_bounds c1wentry zeroMem 4 0x1000 (by decide) (by decide)).mpr
    ⟨by decide, by decide, by decide, ⟨0x400, by norm_num⟩⟩

/-! ### C3: the ELF-signature validation gate -/

theorem valid_elf_ignores_init (e : MapEntry) (mem : Mem) :
    valid_elf { e with init := true } mem = valid_elf e mem := rfl

theorem valid_elf_false_of_sig (e : MapEntry) (mem : Mem)
    (hsig : sigMatch mem e.start = false) : valid_elf e mem = false := by
  unfold valid_elf
  split_ifs <;> simp [hsig]

/-- Counterexample to C3 as stated: for an entry whose range is exactly
the signature (`end = start + SELFMAG`), the range
`[start, start + SELFMAG)` is fully contained in `[start, end)`, the sum
does not overflow, and the bytes match — yet `valid_elf` rejects it
(the code requires `start + SELFMAG` to be strictly below `end`) and the
entry is never marked valid. -/
theorem valid_elf_flush_cex :
    c3entry.start + SELFMAG < PTR_MOD ∧
    c3entry.start + SELFMAG ≤ c3entry.end_ ∧
    sigMatch c3mem c3entry.start = true ∧
    valid_elf c3entry c3mem = false ∧
    (init c3entry c3mem).valid = false := by
  decide

/-- C3 (amended): an entry is recognized by `valid_elf` iff the
signature range can be computed without address overflow, ends strictly
before `entry.end` (one byte of slack is required: a signature ending
exactly at `entry.end` is rejected), and the bytes at `entry.start`
match the ELF magic; a fresh (`init = false`, `valid = false`) entry is
marked valid by initialization exactly when `valid_elf` accepts it; and
an entry whose first `SELFMAG` bytes do not match is never marked valid
and keeps its (zero) `load_bias` after initialization. -/
theorem valid_elf_gate (e : MapEntry) (mem : Mem) :
    (valid_elf e mem = true ↔
      e.start + SELFMAG < PTR_MOD ∧ e.start + SELFMAG < e.end_ ∧
        sigMatch mem e.start = true) ∧
    (e.init = false → e.valid = false →
      ((init e mem).valid = true ↔ valid_elf e mem = true)) ∧
    (sigMatch mem e.start = false →
      (init e mem).valid = e.valid ∧ (init e mem).load_bias = e.load_bias) := by
  refine ⟨?_, ?_, ?_⟩
  · unfold valid_elf
    split_ifs with h1 h2
    · simp only [Bool.false_eq_true, false_iff]
      rintro ⟨ha, -, -⟩
      omega
    · simp only [Bool.false_eq_true, false_iff]
      rintro ⟨-, hb, -⟩
      omega
    · constructor
      · intro h
        exact ⟨by omega, by omega, h⟩
      · intro h
        exact h.2.2
  · intro hinit hvalid
    unfold init
    rw [hinit]
    simp only [Bool.false_eq_true, if_false, valid_elf_ignores_init]
    by_cases hv : valid_elf e mem = true
    · simp [hv]
    · simp only [Bool.not_eq_true] at hv
      simp [hv, hvalid]
  · intro hsig
    unfold init
    by_cases hinit : e.init = true
    · simp [hinit]
    · simp only [Bool.not_eq_true] at hinit
      rw [hinit]
      have : valid_elf { e with init := true } mem = false := by
        rw [valid_elf_ignores_init]
        exact valid_elf_false_of_sig e mem hsig
      simp [this]

theorem valid_elf_gate_witness : valid_elf c3wentry c3mem = true :=
  (valid_elf_gate c3wentry c3mem).1.mpr ⟨by decide, by decide, by decide⟩

/-! ### C4: the program-header walk of `read_loadbias` -/

theorem lb_loop_no_match (e : MapEntry) (mem : Mem) (base : Nat) :
    ∀ n k, (∀ i, i < n → phNoMatch e mem base (k + i)) →
      lb_loop e mem n (phAddr base k) = 0 := by
  intro n
  induction n with
  | zero => intro k _; rfl
  | succ m ih =>
    intro k h
    obtain ⟨ty, off, hty, hoff, hnm⟩ := h 0 (by omega)
    rw [Nat.add_zero] at hty hoff
    simp only [phType, phOffRead] at hty hoff
    simp only [lb_loop, hty, hoff]
    rw [if_neg hnm]
    have hstep : (phAddr base k + sizeof_phdr) % PTR_MOD = phAddr base (k + 1) := rfl
    rw [hstep]
    exact ih (k + 1) fun i hi => by
      have hh := h (i + 1) (by omega)
      have heq : k + (i + 1) = k + 1 + i := by omega
      rwa [heq] at hh

theorem lb_loop_first (e : MapEntry) (mem : Mem) (base : Nat) :
    ∀ n k j v, j < n → (∀ i, i < j → phNoMatch e mem base (k + i)) →
      phType e mem base (k + j) = some PT_LOAD →
      phOffRead e mem base (k + j) = some e.offset →
      phVaddrRead e mem base (k + j) = some v →
      lb_loop e mem n (phAddr base k) = v := by
  intro n
  induction n with
  | zero => intro k j v hj _ _ _ _; omega
  | succ m ih =>
    intro k j v hj hpre hty hoff hv
    cases j with
    | zero =>
      rw [Nat.add_zero] at hty hoff hv
      simp only [phType, phOffRead, phVaddrRead] at hty hoff hv
      simp only [lb_loop, hty, hoff]
      rw [if_pos (by simp)]
      simp [hv]
    | succ j' =>
      obtain ⟨ty, off, h1, h2, h3⟩ := hpre 0 (by omega)
      rw [Nat.add_zero] at h1 h2
      simp only [phType, phOffRead] at h1 h2
      simp only [lb_loop, h1, h2]
      rw [if_neg h3]
      have hstep : (phAddr base k + sizeof_phdr) % PTR_MOD = phAddr base (k + 1) := rfl
      rw [hstep]
      have hk : ∀ x : Nat, k + (x + 1) = k + 1 + x := by omega
      exact ih (k + 1) j' v (by omega)
        (fun i hi => by have hh := hpre (i + 1) (by omega); rwa [hk i] at hh)
        (by rwa [hk j'] at hty) (by rwa [hk j'] at hoff) (by rwa [hk j'] at hv)

theorem lb_loop_denied (e : MapEntry) (mem : Mem) (base : Nat) :
    ∀ n k j, j < n → (∀ i, i < j → phNoMatch e mem base (k + i)) →
      (phType e mem base (k + j) = none ∨
        (∃ ty, phType e mem base (k + j) = some ty ∧ phOffRead e mem base (k + j) = none) ∨
        (phType e mem base (k + j) = some PT_LOAD ∧
          phOffRead e mem base (k + j) = some e.offset ∧
          phVaddrRead e mem base (k + j) = none)) →
      lb_loop e mem n (phAddr base k) = 0 := by
  intro n
  induction n with
  | zero => intro k j hj _ _; omega
  | succ m ih =>
    intro k j hj hpre hden
    cases j with
    | zero =>
      rw [Nat.add_zero] at hden
      rcases hden with h | ⟨ty, h1, h2⟩ | ⟨h1, h2, h3⟩
      · simp only [phType] at h
        simp only [lb_loop, h]
      · simp only [phType, phOffRead] at h1 h2
        simp only [lb_loop, h1, h2]
      · simp only [phType, phOffRead, phVaddrRead] at h1 h2 h3
        simp only [lb_loop, h1, h2]
        rw [if_pos (by simp)]
        simp [h3]
    | succ j' =>
      obtain ⟨ty, off, h1, h2, h3⟩ := hpre 0 (by omega)
      rw [Nat.add_zero] at h1 h2
      simp only [phType, phOffRead] at h1 h2
      simp only [lb_loop, h1, h2]
      rw [if_neg h3]
      have hstep : (phAddr base k + sizeof_phdr) % PTR_MOD = phAddr base (k + 1) := rfl
      rw [hstep]
      have hk : ∀ x : Nat, k + (x + 1) = k + 1 + x := by omega
      exact ih (k + 1) j' (by omega)
        (fun i hi => by have hh := hpre (i + 1) (by omega); rwa [hk i] at hh)
        (by rwa [hk j'] at hden)

/-- C4: for an entry that passed validation, `read_loadbias` scans the
program-header-table entries in order, bounded by the declared count
`e_phnum`: it returns the declared virtual address of the first entry
whose type is `PT_LOAD` and whose file offset equals the mapping's own
`offset`, stopping there; it returns 0 when the `e_phnum` or `e_phoff`
read is denied, when no entry matches within the declared count, or
when any gated read (`p_type`, `p_offset`, or the matching entry's
`p_vaddr`) is denied mid-walk. -/
theorem read_loadbias_scan (e : MapEntry) (mem : Mem) (n po base : Nat)
    (hbase : base = (e.start + po) % PTR_MOD) :
    (get_val e mem 2 ((e.start + e_phnum_offset) % PTR_MOD) = none →
      read_loadbias e mem = 0) ∧
    (get_val e mem 2 ((e.start + e_phnum_offset) % PTR_MOD) = some n →
      (get_val e mem 8 ((e.start + e_phoff_offset) % PTR_MOD) = none →
        read_loadbias e mem = 0) ∧
      (get_val e mem 8 ((e.start + e_phoff_offset) % PTR_MOD) = some po →
        (∀ j v, j < n → (∀ i, i < j → phNoMatch e mem base i) →
          phType e mem base j = some PT_LOAD → phOffRead e mem base j = some e.offset →
          phVaddrRead e mem base j = some v → read_loadbias e mem = v) ∧
        ((∀ i, i < n → phNoMatch e mem base i) → read_loadbias e mem = 0) ∧
        (∀ j, j < n → (∀ i, i < j → phNoMatch e mem base i) →
          (phType e mem base j = none ∨
            (∃ ty, phType e mem base j = some ty ∧ phOffRead e mem base j = none) ∨
            (phType e mem base j = some PT_LOAD ∧ phOffRead e mem base j = some e.offset ∧
              phVaddrRead e mem base j = none)) →
          read_loadbias e mem = 0))) := by
  refine ⟨?_, ?_⟩
  · intro h
    unfold read_loadbias
    rw [h]
  · intro hn
    refine ⟨?_, ?_⟩
    · intro h
      unfold read_loadbias
      rw [hn, h]
    · intro hpo
      have hrw : read_loadbias e mem = lb_loop e mem n (phAddr base 0) := by
        unfold read_loadbias
        rw [hn, hpo, hbase]
        rfl
      refine ⟨?_, ?_, ?_⟩
      · intro j v hj hpre hty hoff hv
        rw [hrw]
        exact lb_loop_first e mem base n 0 j v hj
          (fun i hi => by simpa using hpre i hi)
          (by simpa using hty) (by simpa using hoff) (by simpa using hv)
      · intro hall
        rw [hrw]
        exact lb_loop_no_match e mem base n 0 fun i hi => by simpa using hall i hi
      · intro j hj hpre hden
        rw [hrw]
        exact lb_loop_denied e mem base n 0 j hj
          (fun i hi => by simpa using hpre i hi)
          (by simpa using hden)

theorem read_loadbias_scan_witness : read_loadbias c4entry c4mem = 0x1000 := by
  have h := ((read_loadbias_scan c4entry c4mem 1 0x40 0x1040 (by decide)).2
    (by decide)).2 (by decide)
  exact h.1 0 0x1000 (by decide) (fun i hi => absurd hi (Nat.not_lt_zero i))
    (by decide) (by decide) (by decide)

/-! ### Lookup infrastructure for the `find` theorems -/

theorem lt_length_of_get {α : Type} (l : List α) (i : Nat) (a : α) (h : l[i]? = some a) :
    i < l.length := by
  induction l generalizing i with
  | nil => simp at h
  | cons x xs ih =>
    cases i with
    | zero => simp
    | succ j =>
      simp only [List.getElem?_cons_succ] at h
      simpa using ih j h

theorem listSet_getD_ne {α : Type} (l : List α) (i j : Nat) (a d : α) (h : i ≠ j) :
    (l.set i a).getD j d = l.getD j d := by
  simp [listSet_get_ne l i j a h]

theorem init_preserves (e : MapEntry) (mem : Mem) :
    (init e mem).start = e.start ∧ (init e mem).end_ = e.end_ ∧
    (init e mem).offset = e.offset ∧ (init e mem).name = e.name ∧
    (init e mem).flags = e.flags ∧ (init e mem).elf_start_offset = e.elf_start_offset := by
  simp only [init]
  split_ifs <;> simp

theorem init_not_valid_bias (e : MapEntry) (mem : Mem)
    (h : (init e mem).valid = false) : (init e mem).load_bias = e.load_bias := by
  simp only [init] at h ⊢
  split_ifs at h ⊢ <;> rfl

theorem findCore_own_bias (mem : Mem) (t : List MapEntry) (pc i : Nat) (e : MapEntry)
    (hlook : lookupIdx t pc = some i)
    (hgetD : t.getD i default = e)
    (hsplit : splitTaken mem t i (init e mem) = false) :
    (findCore mem t pc true).1 =
      some (init e mem, some (relFormula pc (init e mem) (init e mem).load_bias)) := by
  unfold findCore
  rw [hlook]
  simp only [hgetD, if_true]
  by_cases hv : (init e mem).valid = false ∧ i ≠ 0
  · rw [if_pos hv]
    have hprev : (t.set i (init e mem)).getD (i - 1) default = t.getD (i - 1) default :=
      listSet_getD_ne t i (i - 1) (init e mem) default (by omega)
    rw [hprev]
    by_cases hg : (t.getD (i - 1) default).flags = PROT_READ ∧
        (t.getD (i - 1) default).offset < (init e mem).offset ∧
        (t.getD (i - 1) default).name = (init e mem).name
    · rw [if_pos hg]
      have hpv : (init (t.getD (i - 1) default) mem).valid = false := by
        unfold splitTaken at hsplit
        rw [if_pos hv] at hsplit
        simp only at hsplit
        rw [if_pos hg] at hsplit
        exact hsplit
      rw [if_neg (by rw [hpv]; decide)]
    · rw [if_neg hg]
  · rw [if_neg hv]

theorem find_no_refresh (mem : Mem) (lines : List (List Char)) (t : List MapEntry)
    (pc i : Nat) (want_rel : Bool) (hlook : lookupIdx t pc = some i) :
    find mem lines t pc want_rel =
      { found := (findCore mem t pc want_rel).1
        table := (findCore mem t pc want_rel).2
        refreshes := 0 } := by
  unfold find
  rw [hlook]
  rfl

/-! ### C2: lookup with the entry's own bias -/

/-- C2: for a `pc` lying inside `[start, end)` of exactly one stored
entry, `find(pc, rel_pc)` returns that entry (lazily initialized; its
identity fields are unchanged), and when the split-mapping borrowing of
step 3 is not taken it stores
`*rel_pc = pc - entry.start + entry.offset + entry.load_bias` using the
entry's own bias — a bias that is still 0 whenever the entry never
validated (its constructor-time bias being 0). -/
theorem find_unique_own_bias (mem : Mem) (lines : List (List Char)) (t : List MapEntry)
    (pc i : Nat) (e : MapEntry)
    (he : t[i]? = some e)
    (hc : containsPC e pc)
    (huniq : ∀ j, j < t.length → j ≠ i → ¬ containsPC (t.getD j default) pc)
    (hsplit : splitTaken mem t i (init e mem) = false)
    (hnov : pc - e.start + e.offset + (init e mem).load_bias < PTR_MOD) :
    (find mem lines t pc true).found =
      some (init e mem, some (pc - e.start + e.offset + (init e mem).load_bias)) ∧
    (init e mem).start = e.start ∧ (init e mem).end_ = e.end_ ∧
    (init e mem).offset = e.offset ∧ (init e mem).name = e.name ∧
    ((init e mem).valid = false → e.load_bias = 0 → (init e mem).load_bias = 0) := by
  have hlen : i < t.length := lt_length_of_get t i e he
  have hlook : lookupIdx t pc = some i :=
    lookupIdx_of_first t pc i e he hc fun j hj => huniq j (by omega) (by omega)
  have hgetD : t.getD i default = e := getD_of_getElem? t i e default he
  have hpres := init_preserves e mem
  refine ⟨?_, hpres.1, hpres.2.1, hpres.2.2.1, hpres.2.2.2.1, ?_⟩
  · rw [find_no_refresh mem lines t pc i true hlook]
    show (findCore mem t pc true).1 = _
    rw [findCore_own_bias mem t pc i e hlook hgetD hsplit]
    unfold relFormula
    rw [hpres.1, hpres.2.2.1, Nat.mod_eq_of_lt hnov]
  · intro hv h0
    rw [init_not_valid_bias e mem hv, h0]

theorem find_unique_own_bias_witness :
    (find zeroMem [] [w2e] 0x1500 true).found =
      some (init w2e zeroMem, some (0x1500 - 0x1000 + 0x30 + (init w2e zeroMem).load_bias)) :=
  (find_unique_own_bias zeroMem [] [w2e] 0x1500 0 w2e (by decide) (by decide)
    (by decide) (by decide) (by decide)).1

/-! ### C7: miss, one refresh, NotFound -/

/-- C7: for a `pc` contained in no stored entry, `find` performs exactly
one table refresh; if the `pc` is still absent from the refreshed table
it returns `none`, with the refreshed table as the final state (no
second refresh happens within the call). -/
theorem find_notfound_one_refresh (mem : Mem) (lines : List (List Char))
    (t : List MapEntry) (pc : Nat)
    (h1 : ∀ e ∈ t, ¬ containsPC e pc) :
    (find mem lines t pc true).refreshes = 1 ∧
    ((∀ e ∈ (ReadMaps t lines).2, ¬ containsPC e pc) →
      (find mem lines t pc true).found = none ∧
      (find mem lines t pc true).table = (ReadMaps t lines).2) := by
  have hl : lookupIdx t pc = none := (lookupIdx_none_iff t pc).mpr h1
  constructor
  · unfold find
    rw [hl]
    rfl
  · intro h2
    have hl2 : lookupIdx (ReadMaps t lines).2 pc = none := (lookupIdx_none_iff _ pc).mpr h2
    unfold find
    rw [hl]
    simp only [Option.isNone_none, if_true]
    unfold findCore
    rw [hl2]
    exact ⟨rfl, rfl⟩

theorem find_notfound_one_refresh_witness :
    (find zeroMem [] [] 0 true).refreshes = 1 ∧ (find zeroMem [] [] 0 true).found = none := by
  have h := find_notfound_one_refresh zeroMem [] [] 0 (by simp)
  exact ⟨h.1, (h.2 (by simp [ReadMaps])).1⟩

/-! ### C10: null rel_pc requests skip the split-mapping step -/

/-- C10: `find(pc, nullptr)` returns the containing entry after lazily
initializing it, updates only that entry's slot in the table (every
other entry — in particular the predecessor — is untouched, hence never
inspected or initialized), leaves `elf_start_offset` unwritten, and
performs no refresh. -/
theorem find_null_relpc_frame (mem : Mem) (lines : List (List Char)) (t : List MapEntry)
    (pc i : Nat) (e : MapEntry)
    (he : t[i]? = some e)
    (hlook : lookupIdx t pc = some i) :
    (find mem lines t pc false).found = some (init e mem, none) ∧
    (find mem lines t pc false).table = t.set i (init e mem) ∧
    (∀ j, j ≠ i → (find mem lines t pc false).table[j]? = t[j]?) ∧
    (init e mem).elf_start_offset = e.elf_start_offset ∧
    (find mem lines t pc false).refreshes = 0 := by
  have hgetD : t.getD i default = e := getD_of_getElem? t i e default he
  rw [find_no_refresh mem lines t pc i false hlook]
  have hcore : findCore mem t pc false = (some (init e mem, none), t.set i (init e mem)) := by
    unfold findCore
    rw [hlook]
    simp only [hgetD]
    rfl
  refine ⟨?_, ?_, ?_, (init_preserves e mem).2.2.2.2.2, rfl⟩
  · show (findCore mem t pc false).1 = _
    rw [hcore]
  · show (findCore mem t pc false).2 = _
    rw [hcore]
  · intro j hj
    show (findCore mem t pc false).2[j]? = _
    rw [hcore]
    exact listSet_get_ne t i j (init e mem) (Ne.symm hj)

/-! ### C5: borrowing the read-only predecessor's bias -/

/-- C5: when the found entry is invalid and not first, and its address
predecessor is readable-only, with a strictly smaller file offset, the
same name, and validates as an ELF image, `find` stores the
predecessor's file offset into the entry's `elf_start_offset` (both in
the returned entry and in the table) and computes the relative PC with
the predecessor's `load_bias`, not the entry's own. -/
theorem find_split_borrow (mem : Mem) (lines : List (List Char)) (t : List MapEntry)
    (pc i : Nat) (e p : MapEntry)
    (he : t[i]? = some e)
    (hlook : lookupIdx t pc = some i)
    (hi : i ≠ 0)
    (hv : (init e mem).valid = false)
    (hp : t[i - 1]? = some p)
    (hpf : p.flags = PROT_READ)
    (hpo : p.offset < e.offset)
    (hpn : p.name = e.name)
    (hpv : (init p mem).valid = true)
    (hnov : pc - e.start + e.offset + (init p mem).load_bias < PTR_MOD) :
    (find mem lines t pc true).found =
      some ({ init e mem with elf_start_offset := p.offset },
        some (pc - e.start + e.offset + (init p mem).load_bias)) ∧
    (find mem lines t pc true).table[i]? =
      some { init e mem with elf_start_offset := p.offset } := by
  have hgetD : t.getD i default = e := getD_of_getElem? t i e default he
  have hgetDp : t.getD (i - 1) default = p := getD_of_getElem? t (i - 1) p default hp
  have hprev : (t.set i (init e mem)).getD (i - 1) default = t.getD (i - 1) default :=
    listSet_getD_ne t i (i - 1) (init e mem) default (by omega)
  have hpres := init_preserves e mem
  rw [find_no_refresh mem lines t pc i true hlook]
  have hcore : findCore mem t pc true =
      (some ({ init e mem with elf_start_offset := p.offset },
          some (relFormula pc (init e mem) (init p mem).load_bias)),
        ((t.set i (init e mem)).set (i - 1) (init p mem)).set i
          { init e mem with elf_start_offset := p.offset }) := by
    unfold findCore
    rw [hlook]
    simp only [hgetD, if_true]
    rw [if_pos ⟨hv, hi⟩, hprev, hgetDp]
    rw [if_pos ⟨hpf, by rw [hpres.2.2.1]; exact hpo, by rw [hpres.2.2.2.1]; exact hpn⟩]
    rw [if_pos hpv]
  constructor
  · show (findCore mem t pc true).1 = _
    rw [hcore]
    unfold relFormula
    rw [hpres.1, hpres.2.2.1, Nat.mod_eq_of_lt hnov]
  · show (findCore mem t pc true).2[i]? = _
    rw [hcore, listSet_get_same, listSet_get_ne _ (i - 1) i _ (by omega), listSet_get_same, he]
    rfl

theorem find_split_borrow_witness :
    (find c4mem [] [wPrev, wExec] 0x2500 true).found =
      some ({ init wExec c4mem with elf_start_offset := wPrev.offset },
        some (0x2500 - 0x2000 + 0x1000 + (init wPrev c4mem).load_bias)) :=
  (find_split_borrow c4mem [] [wPrev, wExec] 0x2500 1 wExec wPrev (by decide) (by decide)
    (by decide) (by decide) (by decide) (by decide) (by decide) (by decide) (by decide)
    (by decide)).1

theorem find_null_relpc_frame_witness :
    (find c4mem [] [wPrev, wExec] 0x2500 false).found = some (init wExec c4mem, none) ∧
    (find c4mem [] [wPrev, wExec] 0x2500 false).table[0]? = some wPrev := by
  have h := find_null_relpc_frame c4mem [] [wPrev, wExec] 0x2500 1 wExec (by decide) (by decide)
  refine ⟨h.1, ?_⟩
  rw [h.2.2.1 0 (by decide)]
  decide

/-! ### C6: the concrete split-mapping scenario -/

/-- Counterexample to C6 as stated: in the scenario the relative offset
returned for `Resolve(0x2500)` is not `0x2500`.  The predecessor's
load-bias scan matches `p_offset == prev->offset`, i.e. `0x1000 == 0x0`,
which fails for the single declared segment, so the borrowed bias is 0,
not 0x1000. -/
theorem resolve_scenario_cex :
    ((find c6mem c6lines [] 0x2500 true).found.map fun pr => pr.2) ≠ some (some 0x2500) := by
  decide

/-- C6 (amended): with the scenario's mapping lines and header,
`Resolve(0x2500)` returns module `/lib/x.so` with `elf_start_offset 0x0`
and relative offset `0x1500 = 0x2500 - 0x2000 + 0x1000 + 0x0`: the
predecessor validates, its file offset 0x0 is recorded, but its load
bias is 0 because no loadable segment has file offset equal to the
predecessor's own mapping offset 0x0; one refresh is performed to
populate the empty table. -/
theorem resolve_scenario_amended :
    ((find c6mem c6lines [] 0x2500 true).found.map
        fun pr => (pr.1.name, pr.1.elf_start_offset, pr.2)) =
      some (xsoName, 0, some 0x1500) ∧
    (find c6mem c6lines [] 0x2500 true).refreshes = 1 := by
  decide

/-! ### C8: refresh failure on malformed lines -/

/-- Counterexample to C8 as stated: a line whose file offset is not
hexadecimal does NOT abort the refresh (`sscanf` has already assigned
the two values the code checks for), and a refresh that does fail (on a
malformed start address) still leaves the entries parsed from earlier
lines committed in the table. -/
theorem readmaps_abort_cex :
    parse_line badOffsetLine ≠ none ∧
    (ReadMaps [] [goodLine, badStartLine]).1 = false ∧
    (ReadMaps [] [goodLine, badStartLine]).2 ≠ [] := by
  decide

/-- C8 (amended): a line whose start or end address fails to parse
(fewer than two `sscanf` conversions) aborts the refresh at that line
and reports failure to the caller; lines after it are not processed,
but the entries inserted from the lines before it remain committed to
the table.  (A malformed file offset alone does not abort, since the
code only rejects `sscanf` results below 2.) -/
theorem readmaps_abort_partial (t : List MapEntry) (pre : List (List Char))
    (l : List Char) (post : List (List Char))
    (hpre : ∀ l' ∈ pre, parse_line l' ≠ none)
    (hl : parse_line l = none) :
    ReadMaps t (pre ++ l :: post) = (false, commitLines t pre) := by
  induction pre generalizing t with
  | nil =>
    simp only [List.nil_append]
    unfold ReadMaps
    rw [hl]
    rfl
  | cons x xs ih =>
    have hx : parse_line x ≠ none := hpre x (by simp)
    obtain ⟨ex, hex⟩ := Option.ne_none_iff_exists'.mp hx
    simp only [List.cons_append]
    unfold ReadMaps commitLines
    rw [hex]
    exact ih (insertEntry t ex) fun l' hl' => hpre l' (by simp [hl'])

theorem readmaps_abort_partial_witness :
    ReadMaps [] [goodLine, badStartLine] = (false, commitLines [] [goodLine]) :=
  readmaps_abort_partial [] [goodLine] badStartLine [] (by decide) (by decide)

/-! ### C9: refresh never replaces an existing entry -/

theorem findByStart_insertSorted_ne (t : List MapEntry) (e' : MapEntry) (s : Nat)
    (h : e'.start ≠ s) :
    findByStart (insertSorted t e') s = findByStart t s := by
  induction t with
  | nil => simp [insertSorted, findByStart, h]
  | cons x xs ih =>
    unfold insertSorted
    by_cases hlt : e'.start < x.start
    · rw [if_pos hlt]
      unfold findByStart
      rw [if_neg h]
      rfl
    · rw [if_neg hlt]
      unfold findByStart
      by_cases hx : x.start = s
      · rw [if_pos hx, if_pos hx]
      · rw [if_neg hx, if_neg hx]
        exact ih

theorem findByStart_insertEntry (t : List MapEntry) (e' : MapEntry) (s : Nat) (e : MapEntry)
    (h : findByStart t s = some e) :
    findByStart (insertEntry t e') s = some e := by
  unfold insertEntry
  by_cases hdup : hasStart t e'.start = true
  · rw [if_pos hdup]
    exact h
  · rw [if_neg hdup]
    by_cases hs : e'.start = s
    · exfalso
      apply hdup
      unfold hasStart
      rw [hs, h]
      rfl
    · rw [findByStart_insertSorted_ne t e' s hs]
      exact h

/-- C9: refresh insertion is idempotent per start address: an entry
already present in the table — with whatever cached `init`, `valid` and
`load_bias` state it carries — survives any refresh verbatim; the
freshly parsed duplicate for its start address is discarded, and
insertions at other start addresses cannot shadow it. -/
theorem readmaps_retains (t : List MapEntry) (lines : List (List Char)) (s : Nat)
    (e : MapEntry) (h : findByStart t s = some e) :
    findByStart (ReadMaps t lines).2 s = some e := by
  induction lines generalizing t with
  | nil => exact h
  | cons l ls ih =>
    unfold ReadMaps
    cases hp : parse_line l with
    | none => exact h
    | some e' => exact ih (insertEntry t e') (findByStart_insertEntry t e' s e h)

theorem readmaps_retains_witness :
    findByStart (ReadMaps [w9e] [goodLine]).2 0x1000 = some w9e :=
  readmaps_retains [w9e] [goodLine] 0x1000 w9e (by decide)
